import Mathlib

/-!
Verification of the email-candidate generator and early-stopping
verification loop of `app.py` (functions `clean_domain`, `parse_name`,
`generate_email_formats`, `verify_single_email`).

Strings are embedded as `List Char`; Python `None` becomes `Option.none`;
the external verification oracle is an explicit function from candidate
email to an abstract response.
-/

/-- Strings of the embedded program are lists of characters. -/
abbrev Str := List Char

/-- Convenience: the character list of a Lean string literal. -/
def str (s : String) : Str := s.data

/-- The ASCII whitespace characters stripped by Python `str.strip()` /
skipped by `str.split()`. -/
def pyWhitespace (c : Char) : Bool :=
  c == ' ' || c == '\t' || c == '\n' || c == '\r' || c == '\x0b' || c == '\x0c'

/-- ASCII lowercasing of one character, as Python `str.lower()` does on
ASCII text. -/
def lowerChar (c : Char) : Char :=
  if 'A' ≤ c ∧ c ≤ 'Z' then Char.ofNat (c.toNat + 32) else c

/-- Python `str.lower()`. -/
def pyLower (s : Str) : Str := s.map lowerChar

/-- Drop leading whitespace. -/
def dropLeading (s : Str) : Str := s.dropWhile pyWhitespace

/-- Drop trailing whitespace. -/
def dropTrailing (s : Str) : Str := (s.reverse.dropWhile pyWhitespace).reverse

/-- Python `str.strip()`. -/
def pyStrip (s : Str) : Str := dropTrailing (dropLeading s)

/-- Helper for `pySplit`: `cur` is the (reversed) token being read. -/
def pySplitAux (cur : Str) : Str → List Str
  | [] => if cur.isEmpty then [] else [cur.reverse]
  | c :: rest =>
    if pyWhitespace c then
      if cur.isEmpty then pySplitAux [] rest
      else cur.reverse :: pySplitAux [] rest
    else pySplitAux (c :: cur) rest

/-- Python `str.split()` with no argument: split on runs of whitespace,
discarding empty tokens. -/
def pySplit (s : Str) : List Str := pySplitAux [] s

/-- Keep only the characters `a`..`z`: Python `re.sub(r'[^a-z]', '', s)`. -/
def letterFilter (s : Str) : Str := s.filter (fun c => decide ('a' ≤ c ∧ c ≤ 'z'))

/-- Python `" ".join(tokens)`. -/
def joinSpace : List Str → Str
  | [] => []
  | [t] => t
  | t :: ts => t ++ ' ' :: joinSpace ts

/-- `s[0]` if `s` is truthy else `''` (Python `s[0] if s else ''`). -/
def strHead : Str → Str
  | [] => []
  | c :: _ => [c]

/-- First character of an optional string, `''` when the value is `None`
or empty (Python `m[0] if m else ''`). -/
def optHead : Option Str → Str
  | some s => strHead s
  | none => []

/-- `clean_domain`, step 1: strip a leading `http://` / `https://`
(case-insensitive), i.e. `re.sub(r'^https?://', '', s, flags=IGNORECASE)`. -/
def stripScheme (s : Str) : Str :=
  if pyLower (s.take 8) = str "https://" then s.drop 8
  else if pyLower (s.take 7) = str "http://" then s.drop 7
  else s

/-- `clean_domain`, step 2: strip a leading `www.` (case-insensitive). -/
def stripWww (s : Str) : Str :=
  if pyLower (s.take 4) = str "www." then s.drop 4 else s

/-- Python `s.split('/')[0]`: everything before the first `/`. -/
def takeUntilSlash (s : Str) : Str := s.takeWhile (fun c => !(c == '/'))

/-- `clean_domain` from `app.py`: empty on blank input, otherwise strip,
remove scheme and `www.`, truncate at the first slash, strip and lowercase. -/
def clean_domain (raw : Str) : Str :=
  if pyStrip raw = [] then []
  else pyLower (pyStrip (takeUntilSlash (stripWww (stripScheme (pyStrip raw)))))

/-- The `(first, middle, last)` triple produced by a successful
`parse_name`; `middle` is `none` when the Python value is `None`. -/
structure ParsedName where
  first : Str
  middle : Option Str
  last : Str
deriving DecidableEq, Repr

/-- The token-level body of `parse_name`, applied to the whitespace-split
token list of the input. -/
def parseParts (parts : List Str) : Option ParsedName :=
  let first1 := pyLower (parts.headD [])
  let last1 : Str :=
    if parts.length = 2 then pyLower (parts.getD 1 [])
    else if 3 ≤ parts.length then pyLower (parts.getLastD []) else []
  let middle1 : Option Str :=
    if 3 ≤ parts.length then some (pyLower (joinSpace ((parts.drop 1).dropLast)))
    else none
  let first2 := letterFilter first1
  let last2 := letterFilter last1
  let middle2 : Option Str := middle1.map (fun m => if m = [] then m else letterFilter m)
  let last3 := if parts.length = 1 ∧ first2 ≠ [] then first2 else last2
  if first2 = [] ∧ last3 = [] then none else some ⟨first2, middle2, last3⟩

/-- `parse_name` from `app.py`: `none` models the Python return value
`(None, None, None)`. -/
def parse_name (full_name : Str) : Option ParsedName :=
  if pyStrip full_name = [] then none
  else parseParts (pySplit (pyStrip full_name))

/-- The raw ordered list of candidate local-parts built by the chain of
conditional appends in `generate_email_formats`, in source order. -/
def potentialLocals (first : Str) (middle : Option Str) (last : Str) : List Str :=
  let f := strHead first
  let m := optHead middle
  let l := strHead last
  (if f ≠ [] ∧ last ≠ [] then [f ++ last] else []) ++
  (if first ≠ [] then [first] else []) ++
  (if first ≠ [] ∧ last ≠ [] then [first ++ '.' :: last] else []) ++
  (if last ≠ [] then [last] else []) ++
  (if f ≠ [] ∧ l ≠ [] then [f ++ l] else []) ++
  (if first ≠ [] ∧ last ≠ [] then [first ++ last] else []) ++
  (if first ≠ [] ∧ l ≠ [] then [first ++ l] else []) ++
  (if last ≠ [] ∧ f ≠ [] then [last ++ f] else []) ++
  (if last ≠ [] ∧ f ≠ [] then [last ++ '.' :: f] else []) ++
  (if f ≠ [] ∧ m ≠ [] ∧ l ≠ [] then [f ++ m ++ l] else []) ++
  (if last ≠ [] ∧ first ≠ [] then [last ++ first] else []) ++
  (if first ≠ [] ∧ m ≠ [] ∧ last ≠ [] then [first ++ '.' :: (m ++ '.' :: last)] else []) ++
  (if f ≠ [] ∧ m ≠ [] ∧ last ≠ [] then [f ++ m ++ last] else []) ++
  (if first ≠ [] ∧ last ≠ [] then [first ++ '_' :: last] else [])

/-- Append `@domain` to a local-part. -/
def addDomain (domain lp : Str) : Str := lp ++ '@' :: domain

/-- Position of the first occurrence of `x` in `l` (length of `l` when
`x` is absent). -/
def idxIn {α : Type} [DecidableEq α] (l : List α) (x : α) : Nat :=
  match l with
  | [] => 0
  | a :: l => if a = x then 0 else idxIn l x + 1

/-- Helper for `dedupFirst`: keep elements not yet in `seen`. -/
def dedupGo {α : Type} [DecidableEq α] (seen : List α) : List α → List α
  | [] => []
  | a :: l => if a ∈ seen then dedupGo seen l else a :: dedupGo (a :: seen) l

/-- Order-preserving first-occurrence deduplication: Python
`list(dict.fromkeys(xs))`. -/
def dedupFirst {α : Type} [DecidableEq α] (l : List α) : List α := dedupGo [] l

/-- `generate_email_formats` from `app.py`: build the raw local-parts,
drop empty ones, append the domain, deduplicate keeping first occurrences. -/
def generate_email_formats (first : Str) (middle : Option Str) (last : Str)
    (domain : Str) : List Str :=
  dedupFirst (((potentialLocals first middle last).filter
    (fun lp => !lp.isEmpty)).map (addDomain domain))

/-- One oracle interaction, as observed by the probing loop:
`raises` models the API call raising an exception, `err` models a
returned dict containing an `error` key (or an empty/falsy dict), and
`ok st` models a successful dict whose optional `status` field is `st`. -/
inductive OracleResult where
  | raises
  | err
  | ok (status : Option Str)
deriving DecidableEq

/-- The result dict built by `verify_single_email` (both the accepted
and the `not_found` shapes; the latter has `email = none`). -/
structure Outcome where
  firstname : Str
  lastname : Str
  company : Str
  email : Option Str
  status : Str
  full_name : Str
  formats_tested : List Str
  total_formats_available : Nat
  found_on_attempt : Option Nat
deriving DecidableEq, Repr

/-- `result.get("status", "unknown")`. -/
def statusOf (st : Option Str) : Str := st.getD (str "unknown")

/-- The forbidden status list of `verify_single_email`. -/
def forbidden_statuses : List Str := [str "invalid", str "disabled", str "unknown"]

/-- Whether one oracle response leads the loop to accept the candidate. -/
def isAcceptedB : OracleResult → Bool
  | .ok st => decide (statusOf st ∉ forbidden_statuses)
  | _ => false

/-- The status string the loop reads out of a successful response. -/
def respStatus : OracleResult → Str
  | .ok st => statusOf st
  | _ => str "unknown"

/-- The probing loop of `verify_single_email`: walk the candidate list,
record each candidate in `tested`, and return at the first acceptable
oracle response; a final `not_found` record when the list is exhausted. -/
def verifyLoop (oracle : Str → OracleResult) (firstname lastname domain full_name : Str)
    (total : Nat) (tested : List Str) : List Str → Outcome
  | [] => ⟨firstname, lastname, domain, none, str "not_found", full_name, tested, total, none⟩
  | email :: rest =>
    match oracle email with
    | .raises => verifyLoop oracle firstname lastname domain full_name total (tested ++ [email]) rest
    | .err => verifyLoop oracle firstname lastname domain full_name total (tested ++ [email]) rest
    | .ok st =>
      if statusOf st ∈ forbidden_statuses then
        verifyLoop oracle firstname lastname domain full_name total (tested ++ [email]) rest
      else
        ⟨firstname, lastname, domain, some email, statusOf st, full_name,
          tested ++ [email], total, some (tested ++ [email]).length⟩

/-- The input-validation and candidate-generation phase of
`verify_single_email` (everything before the probing loop): `none` when
the function returns `None` early. -/
def verifyPrep (firstname lastname company_url : Str) : Option (Str × Str × List Str) :=
  let domain := clean_domain company_url
  if domain = [] then none
  else
    let full_name := pyStrip (firstname ++ ' ' :: lastname)
    match parse_name full_name with
    | none => none
    | some pn =>
      if pn.first = [] ∨ pn.last = [] then none
      else some (domain, full_name, generate_email_formats pn.first pn.middle pn.last domain)

/-- `verify_single_email` from `app.py`, with the external API abstracted
as `oracle`; `none` models the Python return value `None`. -/
def verify_single_email (firstname lastname company_url : Str)
    (oracle : Str → OracleResult) : Option Outcome :=
  match verifyPrep firstname lastname company_url with
  | none => none
  | some (domain, full_name, email_formats) =>
    some (verifyLoop oracle firstname lastname domain full_name
      email_formats.length [] email_formats)

/-- The candidate local-part order as the spec's §4.2 states it: ranks
1-11 first, then the three middle-name patterns 12-14 last. This
definition follows the spec's words (not the source) and exists only to
be compared with `potentialLocals`. -/
def specPotentialLocals (first : Str) (middle : Option Str) (last : Str) : List Str :=
  let f := strHead first
  let m := optHead middle
  let l := strHead last
  (if f ≠ [] ∧ last ≠ [] then [f ++ last] else []) ++
  (if first ≠ [] then [first] else []) ++
  (if first ≠ [] ∧ last ≠ [] then [first ++ '.' :: last] else []) ++
  (if last ≠ [] then [last] else []) ++
  (if f ≠ [] ∧ l ≠ [] then [f ++ l] else []) ++
  (if first ≠ [] ∧ last ≠ [] then [first ++ last] else []) ++
  (if first ≠ [] ∧ l ≠ [] then [first ++ l] else []) ++
  (if last ≠ [] ∧ f ≠ [] then [last ++ f] else []) ++
  (if last ≠ [] ∧ f ≠ [] then [last ++ '.' :: f] else []) ++
  (if last ≠ [] ∧ first ≠ [] then [last ++ first] else []) ++
  (if first ≠ [] ∧ last ≠ [] then [first ++ '_' :: last] else []) ++
  (if f ≠ [] ∧ m ≠ [] ∧ l ≠ [] then [f ++ m ++ l] else []) ++
  (if first ≠ [] ∧ m ≠ [] ∧ last ≠ [] then [first ++ '.' :: (m ++ '.' :: last)] else []) ++
  (if f ≠ [] ∧ m ≠ [] ∧ last ≠ [] then [f ++ m ++ last] else [])

/-- The candidate generator as the spec's §4.2 states it, built on the
spec-ordered local-parts; only for comparison with
`generate_email_formats`. -/
def specGenerate (first : Str) (middle : Option Str) (last : Str)
    (domain : Str) : List Str :=
  dedupFirst (((specPotentialLocals first middle last).filter
    (fun lp => !lp.isEmpty)).map (addDomain domain))

/-! ## Generic facts about first-occurrence deduplication -/

theorem dedupGo_sublist {α : Type} [DecidableEq α] (seen l : List α) :
    List.Sublist (dedupGo seen l) l := by
  induction l generalizing seen with
  | nil => simp [dedupGo]
  | cons a l ih =>
    simp only [dedupGo]
    split
    · exact (ih seen).trans (List.sublist_cons_self a l)
    · exact (ih (a :: seen)).cons₂ a

theorem mem_dedupGo {α : Type} [DecidableEq α] {seen l : List α} {x : α} :
    x ∈ dedupGo seen l ↔ x ∈ l ∧ x ∉ seen := by
  induction l generalizing seen with
  | nil => simp [dedupGo]
  | cons a l ih =>
    simp only [dedupGo]
    split
    · rename_i h
      rw [ih, List.mem_cons]
      constructor
      · rintro ⟨hl, hs⟩
        exact ⟨Or.inr hl, hs⟩
      · rintro ⟨he | hl, hs⟩
        · exact absurd (he ▸ h) hs
        · exact ⟨hl, hs⟩
    · rename_i h
      simp only [List.mem_cons, ih]
      constructor
      · rintro (he | ⟨hl, hs⟩)
        · exact ⟨Or.inl he, he ▸ h⟩
        · exact ⟨Or.inr hl, fun hx => hs (Or.inr hx)⟩
      · rintro ⟨he | hl, hs⟩
        · exact Or.inl he
        · by_cases hxa : x = a
          · exact Or.inl hxa
          · refine Or.inr ⟨hl, fun hx => ?_⟩
            rcases hx with h1 | h2
            exacts [hxa h1, hs h2]

theorem dedupGo_nodup {α : Type} [DecidableEq α] (seen l : List α) :
    (dedupGo seen l).Nodup := by
  induction l generalizing seen with
  | nil => simp [dedupGo]
  | cons a l ih =>
    simp only [dedupGo]
    split
    · exact ih seen
    · refine List.nodup_cons.2 ⟨fun hmem => ?_, ih (a :: seen)⟩
      exact (mem_dedupGo.1 hmem).2 (List.mem_cons_self a seen)

theorem idxIn_cons_ne {α : Type} [DecidableEq α] {a x : α} (l : List α) (h : a ≠ x) :
    idxIn (a :: l) x = idxIn l x + 1 := by
  simp [idxIn, h]

theorem idxIn_cons_self {α : Type} [DecidableEq α] (a : α) (l : List α) :
    idxIn (a :: l) a = 0 := by
  simp [idxIn]

theorem dedupGo_pairwise {α : Type} [DecidableEq α] (seen l : List α) :
    List.Pairwise (fun x y => idxIn l x < idxIn l y) (dedupGo seen l) := by
  induction l generalizing seen with
  | nil => simp [dedupGo]
  | cons a l ih =>
    simp only [dedupGo]
    split
    · rename_i h
      refine (ih seen).imp_of_mem ?_
      intro x y hx hy hlt
      have hxa : a ≠ x := fun he => (mem_dedupGo.1 hx).2 (he ▸ h)
      have hya : a ≠ y := fun he => (mem_dedupGo.1 hy).2 (he ▸ h)
      rw [idxIn_cons_ne _ hxa, idxIn_cons_ne _ hya]
      exact Nat.succ_lt_succ hlt
    · refine List.pairwise_cons.2 ⟨?_, ?_⟩
      · intro y hy
        have hya : a ≠ y := fun he =>
          (mem_dedupGo.1 hy).2 (he ▸ List.mem_cons_self a seen)
        rw [idxIn_cons_self, idxIn_cons_ne _ hya]
        exact Nat.succ_pos _
      · refine (ih (a :: seen)).imp_of_mem ?_
        intro x y hx hy hlt
        have hxa : a ≠ x := fun he =>
          (mem_dedupGo.1 hx).2 (he ▸ List.mem_cons_self a seen)
        have hya : a ≠ y := fun he =>
          (mem_dedupGo.1 hy).2 (he ▸ List.mem_cons_self a seen)
        rw [idxIn_cons_ne _ hxa, idxIn_cons_ne _ hya]
        exact Nat.succ_lt_succ hlt

theorem dedupFirst_sublist {α : Type} [DecidableEq α] (l : List α) :
    List.Sublist (dedupFirst l) l := dedupGo_sublist [] l

theorem mem_dedupFirst {α : Type} [DecidableEq α] {l : List α} {x : α} :
    x ∈ dedupFirst l ↔ x ∈ l := by
  simp [dedupFirst, mem_dedupGo]

theorem dedupFirst_nodup {α : Type} [DecidableEq α] (l : List α) :
    (dedupFirst l).Nodup := dedupGo_nodup [] l

theorem dedupFirst_pairwise {α : Type} [DecidableEq α] (l : List α) :
    List.Pairwise (fun x y => idxIn l x < idxIn l y) (dedupFirst l) :=
  dedupGo_pairwise [] l

theorem dedupGo_map {α β : Type} [DecidableEq α] [DecidableEq β] {g : α → β}
    (hg : Function.Injective g) (seen l : List α) :
    dedupGo (seen.map g) (l.map g) = (dedupGo seen l).map g := by
  induction l generalizing seen with
  | nil => simp [dedupGo]
  | cons a l ih =>
    simp only [List.map_cons, dedupGo, List.mem_map_of_injective hg]
    split
    · exact ih seen
    · rw [← List.map_cons, ih (a :: seen), List.map_cons]

theorem dedupFirst_map {α β : Type} [DecidableEq α] [DecidableEq β] {g : α → β}
    (hg : Function.Injective g) (l : List α) :
    dedupFirst (l.map g) = (dedupFirst l).map g := by
  have h := dedupGo_map hg [] l
  simpa [dedupFirst] using h

theorem addDomain_injective (domain : Str) : Function.Injective (addDomain domain) :=
  fun _ _ h => List.append_cancel_right h

theorem generate_eq (first : Str) (middle : Option Str) (last domain : Str) :
    generate_email_formats first middle last domain =
      dedupFirst (((potentialLocals first middle last).filter
        (fun lp => !lp.isEmpty)).map (addDomain domain)) := rfl

/-- C5: Deduplication of the generated candidate list. The generated
emails are exactly an injective image of a duplicate-free list of
local-parts; that list is a sublist of the raw pattern output (so
relative order is preserved), contains every raw local-part (so only
repeats are removed), and is sorted by first-occurrence position in the
raw output (so it is the first occurrence of each local-part that is
kept). -/
theorem c5_no_duplicate_candidates :
    ∀ (first : Str) (middle : Option Str) (last : Str) (domain : Str),
    (generate_email_formats first middle last domain).Nodup ∧
    ∃ locals : List Str,
      locals.Nodup ∧
      generate_email_formats first middle last domain = locals.map (addDomain domain) ∧
      List.Sublist locals ((potentialLocals first middle last).filter (fun lp => !lp.isEmpty)) ∧
      (∀ lp ∈ (potentialLocals first middle last).filter (fun lp => !lp.isEmpty), lp ∈ locals) ∧
      List.Pairwise (fun x y =>
        idxIn ((potentialLocals first middle last).filter (fun lp => !lp.isEmpty)) x <
        idxIn ((potentialLocals first middle last).filter (fun lp => !lp.isEmpty)) y) locals := by
  intro first middle last domain
  rw [generate_eq]
  exact ⟨dedupFirst_nodup _,
    dedupFirst ((potentialLocals first middle last).filter (fun lp => !lp.isEmpty)),
    dedupFirst_nodup _, dedupFirst_map (addDomain_injective domain) _,
    dedupFirst_sublist _, fun lp hlp => mem_dedupFirst.2 hlp, dedupFirst_pairwise _⟩

/-! ## The probing loop -/

theorem verifyLoop_exhaust (oracle : Str → OracleResult) (fn ln d fname : Str) (total : Nat) :
    ∀ (l tested : List Str),
    (∀ e ∈ l, isAcceptedB (oracle e) = false) →
    verifyLoop oracle fn ln d fname total tested l =
      ⟨fn, ln, d, none, str "not_found", fname, tested ++ l, total, none⟩ := by
  intro l
  induction l with
  | nil => intro tested _; simp [verifyLoop]
  | cons email rest ih =>
    intro tested h
    have hem : isAcceptedB (oracle email) = false := h email (List.mem_cons_self _ _)
    have hrest : ∀ e ∈ rest, isAcceptedB (oracle e) = false :=
      fun e he => h e (List.mem_cons_of_mem _ he)
    cases horc : oracle email with
    | raises =>
      simp only [verifyLoop, horc]
      rw [ih (tested ++ [email]) hrest]
      simp
    | err =>
      simp only [verifyLoop, horc]
      rw [ih (tested ++ [email]) hrest]
      simp
    | ok st =>
      rw [horc] at hem
      simp only [isAcceptedB, decide_eq_false_iff_not, not_not] at hem
      simp only [verifyLoop, horc]
      rw [if_pos hem]
      rw [ih (tested ++ [email]) hrest]
      simp

theorem verifyLoop_accept (oracle : Str → OracleResult) (fn ln d fname : Str) (total : Nat) :
    ∀ (pre : List Str) (c : Str) (post tested : List Str),
    (∀ e ∈ pre, isAcceptedB (oracle e) = false) →
    isAcceptedB (oracle c) = true →
    verifyLoop oracle fn ln d fname total tested (pre ++ c :: post) =
      ⟨fn, ln, d, some c, respStatus (oracle c), fname, tested ++ pre ++ [c], total,
        some (tested ++ pre ++ [c]).length⟩ := by
  intro pre
  induction pre with
  | nil =>
    intro c post tested _ hacc
    cases horc : oracle c with
    | raises => rw [horc] at hacc; simp [isAcceptedB] at hacc
    | err => rw [horc] at hacc; simp [isAcceptedB] at hacc
    | ok st =>
      rw [horc] at hacc
      simp only [isAcceptedB, decide_eq_true_eq] at hacc
      simp only [List.nil_append, verifyLoop, horc]
      rw [if_neg hacc]
      simp [respStatus, horc]
  | cons a pre ih =>
    intro c post tested hpre hacc
    have hea : isAcceptedB (oracle a) = false := hpre a (List.mem_cons_self _ _)
    have hrest : ∀ e ∈ pre, isAcceptedB (oracle e) = false :=
      fun e he => hpre e (List.mem_cons_of_mem _ he)
    cases horc : oracle a with
    | raises =>
      simp only [List.cons_append, verifyLoop, horc, List.append_eq]
      rw [ih c post (tested ++ [a]) hrest hacc]
      simp
    | err =>
      simp only [List.cons_append, verifyLoop, horc, List.append_eq]
      rw [ih c post (tested ++ [a]) hrest hacc]
      simp
    | ok st =>
      rw [horc] at hea
      simp only [isAcceptedB, decide_eq_false_iff_not, not_not] at hea
      simp only [List.cons_append, verifyLoop, horc, List.append_eq]
      rw [if_pos hea]
      rw [ih c post (tested ++ [a]) hrest hacc]
      simp

theorem verifyLoop_accepted_status (oracle : Str → OracleResult) (fn ln d fname : Str)
    (total : Nat) :
    ∀ (l tested : List Str) (out : Outcome) (e : Str),
    verifyLoop oracle fn ln d fname total tested l = out →
    out.email = some e →
    out.status ∉ forbidden_statuses ∧
      oracle e = OracleResult.ok (some out.status) := by
  intro l
  induction l with
  | nil =>
    intro tested out e hout hemail
    simp only [verifyLoop] at hout
    subst hout
    simp at hemail
  | cons email rest ih =>
    intro tested out e hout hemail
    cases horc : oracle email with
    | raises =>
      simp only [verifyLoop, horc] at hout
      exact ih _ _ _ hout hemail
    | err =>
      simp only [verifyLoop, horc] at hout
      exact ih _ _ _ hout hemail
    | ok st =>
      simp only [verifyLoop, horc] at hout
      by_cases hc : statusOf st ∈ forbidden_statuses
      · rw [if_pos hc] at hout
        exact ih _ _ _ hout hemail
      · rw [if_neg hc] at hout
        subst hout
        have he : email = e := Option.some.inj hemail
        subst he
        cases st with
        | none => exact absurd (by decide) hc
        | some s => exact ⟨hc, horc⟩

/-- The accepted-candidate shape of `verify_single_email`, shared by the
early-stopping theorems. -/
theorem verify_accept_eq (fn ln url d fname : Str) (cands pre post : List Str) (c : Str)
    (oracle : Str → OracleResult)
    (hprep : verifyPrep fn ln url = some (d, fname, cands))
    (hsplit : cands = pre ++ c :: post)
    (hpre : ∀ e ∈ pre, isAcceptedB (oracle e) = false)
    (hacc : isAcceptedB (oracle c) = true) :
    verify_single_email fn ln url oracle =
      some ⟨fn, ln, d, some c, respStatus (oracle c), fname, pre ++ [c], cands.length,
        some (pre.length + 1)⟩ := by
  unfold verify_single_email
  rw [hprep]
  rw [show cands = pre ++ c :: post from hsplit]
  show some (verifyLoop oracle fn ln d fname (pre ++ c :: post).length [] (pre ++ c :: post)) = _
  rw [verifyLoop_accept oracle fn ln d fname _ pre c post [] hpre hacc]
  simp

theorem verify_of_prep_none (fn ln url : Str) (oracle : Str → OracleResult)
    (h : verifyPrep fn ln url = none) :
    verify_single_email fn ln url oracle = none := by
  unfold verify_single_email
  rw [h]

/-- C1: early-stopping acceptance. If every candidate before `c` is
rejected (error, exception, or forbidden status) and the oracle accepts
`c`, then `verify_single_email` returns the accepted outcome whose email
is `c`, whose status is the oracle's returned status, whose tried list is
exactly the candidates up to and including `c`, and whose 1-based attempt
index is their count; moreover the result only depends on the oracle's
behaviour on those tried candidates, so the oracle is never consulted on
the candidates after `c`. -/
theorem c1_early_stop :
    ∀ (fn ln url d fname : Str) (cands pre post : List Str) (c : Str)
      (oracle : Str → OracleResult),
    verifyPrep fn ln url = some (d, fname, cands) →
    cands = pre ++ c :: post →
    (∀ e ∈ pre, isAcceptedB (oracle e) = false) →
    isAcceptedB (oracle c) = true →
    (verify_single_email fn ln url oracle =
      some ⟨fn, ln, d, some c, respStatus (oracle c), fname, pre ++ [c], cands.length,
        some (pre.length + 1)⟩) ∧
    ∀ oracle2 : Str → OracleResult,
      (∀ e ∈ pre ++ [c], oracle2 e = oracle e) →
      verify_single_email fn ln url oracle2 = verify_single_email fn ln url oracle := by
  intro fn ln url d fname cands pre post c oracle hprep hsplit hpre hacc
  refine ⟨verify_accept_eq fn ln url d fname cands pre post c oracle hprep hsplit hpre hacc, ?_⟩
  intro oracle2 hagree
  have hc : c ∈ pre ++ [c] := List.mem_append_right _ (List.mem_singleton_self c)
  have hpre2 : ∀ e ∈ pre, isAcceptedB (oracle2 e) = false := fun e he => by
    rw [hagree e (List.mem_append_left _ he)]
    exact hpre e he
  have hacc2 : isAcceptedB (oracle2 c) = true := by
    rw [hagree c hc]
    exact hacc
  rw [verify_accept_eq fn ln url d fname cands pre post c oracle2 hprep hsplit hpre2 hacc2,
    verify_accept_eq fn ln url d fname cands pre post c oracle hprep hsplit hpre hacc,
    hagree c hc]

theorem c1_early_stop_witness :
    verify_single_email (str "john") (str "smith") (str "company.com")
      (fun e => if e = str "john@company.com" then OracleResult.ok (some (str "valid"))
        else OracleResult.ok (some (str "invalid"))) =
    some ⟨str "john", str "smith", str "company.com", some (str "john@company.com"),
      str "valid", str "john smith",
      [str "jsmith@company.com", str "john@company.com"], 11, some 2⟩ := by
  have h := (c1_early_stop (str "john") (str "smith") (str "company.com")
    (str "company.com") (str "john smith")
    [str "jsmith@company.com", str "john@company.com", str "john.smith@company.com",
     str "smith@company.com", str "js@company.com", str "johnsmith@company.com",
     str "johns@company.com", str "smithj@company.com", str "smith.j@company.com",
     str "smithjohn@company.com", str "john_smith@company.com"]
    [str "jsmith@company.com"]
    [str "john.smith@company.com", str "smith@company.com", str "js@company.com",
     str "johnsmith@company.com", str "johns@company.com", str "smithj@company.com",
     str "smith.j@company.com", str "smithjohn@company.com", str "john_smith@company.com"]
    (str "john@company.com")
    (fun e => if e = str "john@company.com" then OracleResult.ok (some (str "valid"))
      else OracleResult.ok (some (str "invalid")))
    (by decide) (by decide) (by decide) (by decide)).1
  exact h

/-- C4: `verify_single_email` is a total function (the embedding returns
a value for every oracle, including one that raises on every call), and
when no candidate is accepted — in particular when the oracle raises or
returns a transport error on each candidate, every failure being
absorbed by moving on — the outcome is `not_found` with no email, no
attempt index, and the full candidate list recorded as tried. -/
theorem c4_exhausted_not_found :
    ∀ (fn ln url d fname : Str) (cands : List Str) (oracle : Str → OracleResult),
    verifyPrep fn ln url = some (d, fname, cands) →
    (∀ e ∈ cands, isAcceptedB (oracle e) = false) →
    verify_single_email fn ln url oracle =
      some ⟨fn, ln, d, none, str "not_found", fname, cands, cands.length, none⟩ := by
  intro fn ln url d fname cands oracle hprep hrej
  unfold verify_single_email
  rw [hprep]
  show some (verifyLoop oracle fn ln d fname cands.length [] cands) = _
  rw [verifyLoop_exhaust oracle fn ln d fname cands.length cands [] hrej]
  simp

theorem c4_exhausted_not_found_witness :
    verify_single_email (str "john") (str "smith") (str "company.com")
      (fun _ => OracleResult.raises) =
    some ⟨str "john", str "smith", str "company.com", none, str "not_found",
      str "john smith",
      [str "jsmith@company.com", str "john@company.com", str "john.smith@company.com",
       str "smith@company.com", str "js@company.com", str "johnsmith@company.com",
       str "johns@company.com", str "smithj@company.com", str "smith.j@company.com",
       str "smithjohn@company.com", str "john_smith@company.com"], 11, none⟩ := by
  have h := c4_exhausted_not_found (str "john") (str "smith") (str "company.com")
    (str "company.com") (str "john smith")
    [str "jsmith@company.com", str "john@company.com", str "john.smith@company.com",
     str "smith@company.com", str "js@company.com", str "johnsmith@company.com",
     str "johns@company.com", str "smithj@company.com", str "smith.j@company.com",
     str "smithjohn@company.com", str "john_smith@company.com"]
    (fun _ => OracleResult.raises) (by decide) (by decide)
  exact h

/-- C9: whenever the parsed name has an empty `first` or an empty `last`
token after letter-filtering — even when parsing itself succeeded —
`verify_single_email` returns `none` for every oracle, so no candidate
is ever probed. -/
theorem c9_abort_on_empty_name_token :
    ∀ (fn ln url : Str) (oracle : Str → OracleResult) (pn : ParsedName),
    parse_name (pyStrip (fn ++ ' ' :: ln)) = some pn →
    pn.first = [] ∨ pn.last = [] →
    verify_single_email fn ln url oracle = none := by
  intro fn ln url oracle pn hparse hempty
  apply verify_of_prep_none
  simp only [verifyPrep, hparse]
  by_cases hdom : clean_domain url = []
  · rw [if_pos hdom]
  · rw [if_neg hdom, if_pos hempty]

theorem c9_abort_on_empty_name_token_witness :
    parse_name (pyStrip (str "john" ++ ' ' :: str "123")) =
      some ⟨str "john", none, []⟩ ∧
    verify_single_email (str "john") (str "123") (str "company.com")
      (fun _ => OracleResult.ok (some (str "valid"))) = none := by
  refine ⟨by decide, ?_⟩
  exact c9_abort_on_empty_name_token (str "john") (str "123") (str "company.com")
    (fun _ => OracleResult.ok (some (str "valid"))) ⟨str "john", none, []⟩
    (by decide) (by decide)

/-- C10: a successful oracle response with no status field reads as
status `unknown`, which is forbidden; consequently every outcome of
`verify_single_email` that carries an accepted email has a status that
the oracle itself supplied for that email and that is not in the
forbidden set. -/
theorem c10_accepted_status_from_oracle :
    statusOf none = str "unknown" ∧ statusOf none ∈ forbidden_statuses ∧
    ∀ (fn ln url : Str) (oracle : Str → OracleResult) (out : Outcome) (e : Str),
      verify_single_email fn ln url oracle = some out →
      out.email = some e →
      out.status ∉ forbidden_statuses ∧ oracle e = OracleResult.ok (some out.status) := by
  refine ⟨by decide, by decide, ?_⟩
  intro fn ln url oracle out e hv hemail
  unfold verify_single_email at hv
  cases hprep : verifyPrep fn ln url with
  | none =>
    rw [hprep] at hv
    exact absurd hv (by simp)
  | some t =>
    obtain ⟨d, fname, fmts⟩ := t
    rw [hprep] at hv
    have hv2 : verifyLoop oracle fn ln d fname fmts.length [] fmts = out :=
      Option.some.inj hv
    exact verifyLoop_accepted_status oracle fn ln d fname fmts.length fmts [] out e hv2 hemail

theorem c10_accepted_status_from_oracle_witness :
    (str "valid") ∉ forbidden_statuses ∧
    (fun _ => OracleResult.ok (some (str "valid"))) (str "jsmith@company.com") =
      OracleResult.ok (some (str "valid")) := by
  have h := c10_accepted_status_from_oracle.2.2 (str "john") (str "smith")
    (str "company.com") (fun _ => OracleResult.ok (some (str "valid")))
    ⟨str "john", str "smith", str "company.com", some (str "jsmith@company.com"),
      str "valid", str "john smith", [str "jsmith@company.com"], 11, some 1⟩
    (str "jsmith@company.com") (by decide) rfl
  exact h

/-- C3 counterexample: on an empty company reference, and on a name with
no usable tokens, `verify_single_email` returns the absent result `none`
— not a structured outcome carrying an `invalid_domain` / `invalid_names`
status as the claim states. -/
theorem c3_sentinel_cex :
    verify_single_email (str "john") (str "smith") [] (fun _ => OracleResult.raises) = none ∧
    verify_single_email (str "123") (str "456") (str "company.com")
      (fun _ => OracleResult.raises) = none := by
  exact ⟨by decide, by decide⟩

/-- C3 amended: when the company reference normalizes to an empty domain,
or the name fails to parse, `verify_single_email` returns the absent
result `none` (it neither raises nor produces an outcome; no
`invalid_domain` / `invalid_names` sentinel exists in the code). -/
theorem c3_returns_none :
    (∀ (fn ln url : Str) (oracle : Str → OracleResult),
      clean_domain url = [] → verify_single_email fn ln url oracle = none) ∧
    (∀ (fn ln url : Str) (oracle : Str → OracleResult),
      parse_name (pyStrip (fn ++ ' ' :: ln)) = none →
      verify_single_email fn ln url oracle = none) := by
  constructor
  · intro fn ln url oracle hdom
    apply verify_of_prep_none
    simp only [verifyPrep]
    rw [if_pos hdom]
  · intro fn ln url oracle hparse
    apply verify_of_prep_none
    simp only [verifyPrep, hparse]
    by_cases hdom : clean_domain url = []
    · rw [if_pos hdom]
    · rw [if_neg hdom]

theorem c3_returns_none_witness :
    verify_single_email (str "john") (str "smith") (str "   ")
      (fun _ => OracleResult.err) = none :=
  c3_returns_none.1 (str "john") (str "smith") (str "   ")
    (fun _ => OracleResult.err) (by decide)

/-- C2 counterexample: with a middle name present the code's generation
order differs from the spec's ranks 1-14 (the spec places
`{first}_{last}` at rank 11 before all middle-name patterns; the code
emits `{f}{m}{l}` before `{last}{first}` and emits `{first}_{last}`
last). -/
theorem c2_spec_order_cex :
    generate_email_formats (str "john") (some (str "paul")) (str "smith") (str "x.com") ≠
      specGenerate (str "john") (some (str "paul")) (str "smith") (str "x.com") := by
  decide

/-- C2 amended: the code's actual priority order. Without a middle name
the order matches the spec's ranks 1-11; with a middle name the code
inserts `{f}{m}{l}` between `{last}.{f}` and `{last}{first}`, then
`{first}.{m}.{last}` and `{f}{m}{last}` after `{last}{first}`, and puts
`{first}_{last}` last of all. -/
theorem c2_code_order :
    ∀ (first last mid : Str),
    first ≠ [] → last ≠ [] →
    (potentialLocals first none last =
      [strHead first ++ last, first, first ++ '.' :: last, last,
       strHead first ++ strHead last, first ++ last, first ++ strHead last,
       last ++ strHead first, last ++ '.' :: strHead first, last ++ first,
       first ++ '_' :: last]) ∧
    (mid ≠ [] →
      potentialLocals first (some mid) last =
      [strHead first ++ last, first, first ++ '.' :: last, last,
       strHead first ++ strHead last, first ++ last, first ++ strHead last,
       last ++ strHead first, last ++ '.' :: strHead first,
       strHead first ++ strHead mid ++ strHead last, last ++ first,
       first ++ '.' :: (strHead mid ++ '.' :: last),
       strHead first ++ strHead mid ++ last, first ++ '_' :: last]) := by
  intro first last mid hf hl
  obtain ⟨a, first2, rfl⟩ := List.exists_cons_of_ne_nil hf
  obtain ⟨b, last2, rfl⟩ := List.exists_cons_of_ne_nil hl
  constructor
  · simp [potentialLocals, strHead, optHead]
  · intro hm
    obtain ⟨c, mid2, rfl⟩ := List.exists_cons_of_ne_nil hm
    simp [potentialLocals, strHead, optHead]

theorem c2_code_order_witness :
    potentialLocals (str "john") none (str "smith") =
      [str "jsmith", str "john", str "john.smith", str "smith", str "js",
       str "johnsmith", str "johns", str "smithj", str "smith.j",
       str "smithjohn", str "john_smith"] ∧
    potentialLocals (str "john") (some (str "paul")) (str "smith") =
      [str "jsmith", str "john", str "john.smith", str "smith", str "js",
       str "johnsmith", str "johns", str "smithj", str "smith.j", str "jps",
       str "smithjohn", str "john.p.smith", str "jpsmith", str "john_smith"] := by
  have h := c2_code_order (str "john") (str "smith") (str "paul")
    (by decide) (by decide)
  exact ⟨h.1, h.2 (by decide)⟩

/-! ## Facts about tokenisation -/

theorem nil_not_mem_pySplitAux : ∀ (s cur : Str), [] ∉ pySplitAux cur s := by
  intro s
  induction s with
  | nil =>
    intro cur
    simp only [pySplitAux]
    split
    · simp
    · rename_i h
      simp only [List.mem_singleton]
      intro he
      exact h (by simpa [List.isEmpty_iff] using congrArg List.isEmpty he.symm)
  | cons c rest ih =>
    intro cur
    simp only [pySplitAux]
    split
    · split
      · exact ih []
      · rename_i h
        simp only [List.mem_cons, not_or]
        refine ⟨fun he => h ?_, ih []⟩
        simpa [List.isEmpty_iff] using congrArg List.isEmpty he.symm
    · exact ih (c :: cur)

theorem token_ne_nil {s t : Str} (h : t ∈ pySplit s) : t ≠ [] := by
  intro he
  subst he
  exact nil_not_mem_pySplitAux s [] h

theorem pySplit_nil : pySplit [] = [] := rfl

theorem pyStrip_ne_nil_of_split {s : Str} {parts : List Str}
    (h : pySplit (pyStrip s) = parts) (hp : parts ≠ []) : pyStrip s ≠ [] := by
  intro he
  rw [he, pySplit_nil] at h
  exact hp h.symm

theorem parse_name_eq {s : Str} (h : pyStrip s ≠ []) :
    parse_name s = parseParts (pySplit (pyStrip s)) := by
  simp [parse_name, h]

theorem letterFilter_nil : letterFilter [] = [] := rfl

theorem pyLower_nil : pyLower [] = [] := rfl

/-- C7: a single-token name whose letter-filtered lowercase form is
non-empty parses to `(x, None, x)` with `x` that filtered token; and for
every name, `parse_name` fails exactly when both the first and the last
token are empty after lowercasing and letter-filtering. -/
theorem c7_single_token_and_failure :
    (∀ (s t : Str), pySplit (pyStrip s) = [t] →
      letterFilter (pyLower t) ≠ [] →
      parse_name s = some ⟨letterFilter (pyLower t), none, letterFilter (pyLower t)⟩) ∧
    (∀ s : Str, parse_name s = none ↔
      (letterFilter (pyLower ((pySplit (pyStrip s)).headD [])) = [] ∧
       letterFilter (pyLower ((pySplit (pyStrip s)).getLastD [])) = [])) := by
  constructor
  · intro s t hsplit hx
    rw [parse_name_eq (pyStrip_ne_nil_of_split hsplit (by simp)), hsplit]
    simp [parseParts, hx]
  · intro s
    by_cases hstrip : pyStrip s = []
    · rw [hstrip, pySplit_nil]
      simp [parse_name, hstrip, letterFilter_nil, pyLower_nil]
    · rw [parse_name_eq hstrip]
      rcases hp : pySplit (pyStrip s) with _ | ⟨t1, rest⟩
      · simp [parseParts, letterFilter_nil, pyLower_nil]
      · rcases rest with _ | ⟨t2, rest2⟩
        · by_cases hx : letterFilter (pyLower t1) = []
          · simp [parseParts, hx, letterFilter_nil]
          · simp [parseParts, hx]
        · rcases rest2 with _ | ⟨t3, rest3⟩
          · simp only [parseParts]
            split_ifs with h <;> simp_all
          · simp only [parseParts]
            split_ifs with h <;> simp_all

theorem c7_single_token_and_failure_witness :
    parse_name (str " John ") = some ⟨str "john", none, str "john"⟩ ∧
    (parse_name (str "123 456") = none ↔
      (letterFilter (pyLower ((pySplit (pyStrip (str "123 456"))).headD [])) = [] ∧
       letterFilter (pyLower ((pySplit (pyStrip (str "123 456"))).getLastD [])) = [])) := by
  constructor
  · have h := c7_single_token_and_failure.1 (str " John ") (str "John")
      (by decide) (by decide)
    exact h
  · exact c7_single_token_and_failure.2 (str "123 456")

/-- C8 counterexample: for `"Anna van der Berg"` the parsed middle is
`"vander"` — the joining space between the interior tokens is removed by
the letter filter — not `"van der"` as the claim states. -/
theorem c8_middle_space_cex :
    parse_name (str "Anna van der Berg") =
      some ⟨str "anna", some (str "vander"), str "berg"⟩ ∧
    str "vander" ≠ str "van der" := by
  exact ⟨by decide, by decide⟩

/-- C8 amended: for names of three or more tokens, `first` is the first
token and `last` the final token (lowercased, letter-filtered), but the
middle is the interior tokens joined with a space, lowercased, and then
letter-filtered as a single string — so the joining spaces (and any
other non-letters) are removed rather than preserved. -/
theorem c8_three_token_parse :
    ∀ (s t1 t2 t3 : Str) (rest : List Str),
    pySplit (pyStrip s) = t1 :: t2 :: t3 :: rest →
    ¬(letterFilter (pyLower t1) = [] ∧
      letterFilter (pyLower ((t1 :: t2 :: t3 :: rest).getLastD [])) = []) →
    parse_name s = some ⟨letterFilter (pyLower t1),
      some (letterFilter (pyLower (joinSpace ((t2 :: t3 :: rest).dropLast)))),
      letterFilter (pyLower ((t1 :: t2 :: t3 :: rest).getLastD []))⟩ := by
  intro s t1 t2 t3 rest hsplit hne
  rw [parse_name_eq (pyStrip_ne_nil_of_split hsplit (by simp)), hsplit]
  have ht2 : t2 ≠ [] := token_ne_nil (hsplit ▸ List.mem_cons_of_mem _ (List.mem_cons_self _ _))
  have hjoin : joinSpace (t2 :: (t3 :: rest).dropLast) ≠ [] := by
    cases hdl : (t3 :: rest).dropLast with
    | nil => simpa [joinSpace] using ht2
    | cons u us => simp [joinSpace]
  have hmid : pyLower (joinSpace (t2 :: (t3 :: rest).dropLast)) ≠ [] := by
    simpa [pyLower, List.map_eq_nil_iff] using hjoin
  simp only [parseParts]
  rw [if_neg (by simpa using hne)]
  simp [hmid]

theorem c8_three_token_parse_witness :
    parse_name (str "Anna  van der  Berg") =
      some ⟨str "anna", some (str "vander"), str "berg"⟩ := by
  have h := c8_three_token_parse (str "Anna  van der  Berg") (str "Anna") (str "van")
    (str "der") [str "Berg"] (by decide) (by decide)
  exact h

/-! ## Facts about whitespace stripping -/

theorem lowerChar_of_ws {c : Char} (h : pyWhitespace c = true) : lowerChar c = c := by
  have h2 : c = ' ' ∨ c = '\t' ∨ c = '\n' ∨ c = '\x0d' ∨ c = '\x0b' ∨ c = '\x0c' := by
    simpa [pyWhitespace, or_assoc] using h
  rcases h2 with h2 | h2 | h2 | h2 | h2 | h2 <;> subst h2 <;> decide

theorem head_not_ws_of_lower {s : Str} {c0 : Char} (h : (pyLower s).head? = some c0)
    (hc : pyWhitespace c0 = false) : ∀ c, s.head? = some c → pyWhitespace c = false := by
  intro c hc2
  cases s with
  | nil => simp at hc2
  | cons a s =>
    simp only [pyLower, List.map_cons, List.head?_cons, Option.some.injEq] at h
    have ha : a = c := by simpa using hc2
    subst ha
    by_cases hws : pyWhitespace a = true
    · rw [lowerChar_of_ws hws] at h
      subst h
      exact hc
    · simpa using hws

theorem dropWhile_append_all {p : Char → Bool} {ws : Str} (t : Str) (h : ws.all p = true) :
    (ws ++ t).dropWhile p = t.dropWhile p := by
  induction ws with
  | nil => rfl
  | cons c ws ih =>
    simp only [List.all_cons, Bool.and_eq_true] at h
    rw [List.cons_append, List.dropWhile_cons]
    simp [h.1, ih h.2]

theorem dropWhile_eq_self_of_head {p : Char → Bool} {t : Str}
    (h : ∀ c, t.head? = some c → p c = false) : t.dropWhile p = t := by
  cases t with
  | nil => rfl
  | cons c t =>
    rw [List.dropWhile_cons]
    simp [h c rfl]

theorem dropWhile_append_keep {p : Char → Bool} {v : Str} (u : Str)
    (hv : ∀ c, v.head? = some c → p c = false) :
    (u ++ v).dropWhile p = u.dropWhile p ++ v := by
  induction u with
  | nil => simp [dropWhile_eq_self_of_head hv]
  | cons c u ih =>
    rw [List.cons_append, List.dropWhile_cons, List.dropWhile_cons]
    by_cases hc : p c = true
    · simp [hc, ih]
    · simp [hc]

theorem dropWhile_nil_of_all {p : Char → Bool} {l : Str} (h : l.all p = true) :
    l.dropWhile p = [] := by
  induction l with
  | nil => rfl
  | cons c l ih =>
    simp only [List.all_cons, Bool.and_eq_true] at h
    rw [List.dropWhile_cons]
    simp [h.1, ih h.2]

theorem dropTrailing_nil_of_all {t : Str} (h : t.all pyWhitespace = true) :
    dropTrailing t = [] := by
  have hr : t.reverse.all pyWhitespace = true := by
    simp only [List.all_eq_true] at h ⊢
    intro x hx
    exact h x (List.mem_reverse.1 hx)
  simp [dropTrailing, dropWhile_nil_of_all hr]

theorem dropTrailing_head (t : Str) :
    dropTrailing t = [] ∨ (dropTrailing t).head? = t.head? := by
  have hsfx : t.reverse.dropWhile pyWhitespace <:+ t.reverse := List.dropWhile_suffix _
  have hpre := ( List.reverse_prefix).mpr hsfx
  rw [List.reverse_reverse] at hpre
  have hpre2 : dropTrailing t <+: t := hpre
  obtain ⟨r, hr⟩ := hpre2
  cases hdt : dropTrailing t with
  | nil => exact Or.inl rfl
  | cons c tl =>
    right
    rw [← hr, hdt]
    rfl

theorem pyStrip_decomp (ws1 A t : Str) (h1 : ws1.all pyWhitespace = true)
    (hA : A ≠ [])
    (hhead : ∀ c, A.head? = some c → pyWhitespace c = false)
    (hlast : ∀ c, A.reverse.head? = some c → pyWhitespace c = false) :
    pyStrip (ws1 ++ (A ++ t)) = A ++ dropTrailing t := by
  unfold pyStrip dropLeading dropTrailing
  rw [dropWhile_append_all (A ++ t) h1]
  have hheadAT : ∀ c, (A ++ t).head? = some c → pyWhitespace c = false := by
    intro c hc
    obtain ⟨a, A2, rfl⟩ := List.exists_cons_of_ne_nil hA
    rw [List.cons_append] at hc
    have : a = c := by simpa using hc
    subst this
    exact hhead a rfl
  rw [dropWhile_eq_self_of_head hheadAT]
  rw [List.reverse_append]
  rw [dropWhile_append_keep t.reverse hlast]
  rw [List.reverse_append, List.reverse_reverse]

theorem pyStrip_eq_self {h : Str} (hhs : ∀ c ∈ h, pyWhitespace c = false) :
    pyStrip h = h := by
  unfold pyStrip dropLeading dropTrailing
  rw [dropWhile_eq_self_of_head (fun c hc => hhs c (List.mem_of_mem_head? hc))]
  rw [dropWhile_eq_self_of_head
    (fun c hc => hhs c (List.mem_reverse.1 (List.mem_of_mem_head? hc)))]
  exact List.reverse_reverse h

theorem takeWhile_append_all {q : Char → Bool} {u : Str} (v : Str)
    (h : ∀ c ∈ u, q c = true) : (u ++ v).takeWhile q = u ++ v.takeWhile q := by
  induction u with
  | nil => rfl
  | cons c u ih =>
    rw [List.cons_append, List.takeWhile_cons]
    simp [h c (List.mem_cons_self _ _), ih (fun d hd => h d (List.mem_cons_of_mem _ hd))]

theorem takeUntilSlash_append (h T : Str) (hsl : '/' ∉ h)
    (hT : T = [] ∨ T.head? = some '/') : takeUntilSlash (h ++ T) = h := by
  unfold takeUntilSlash
  rw [takeWhile_append_all T (fun c hc => by
    have hne : c ≠ '/' := fun he => hsl (he ▸ hc)
    simp [hne])]
  rcases hT with rfl | hh
  · simp [List.takeWhile]
  · obtain ⟨p, rfl⟩ : ∃ p, T = '/' :: p := by
      cases T with
      | nil => simp at hh
      | cons a p =>
        have : a = '/' := by simpa using hh
        exact ⟨p, by rw [this]⟩
    rw [List.takeWhile_cons]
    simp

/-! ## Facts about case-insensitive prefix stripping -/

theorem pyLower_append (a b : Str) : pyLower (a ++ b) = pyLower a ++ pyLower b :=
  List.map_append lowerChar a b

theorem pyLower_length (s : Str) : (pyLower s).length = s.length := by
  simp [pyLower]

theorem pyLower_take (s : Str) (m : Nat) : pyLower (s.take m) = (pyLower s).take m := by
  simp only [pyLower]
  exact List.map_take lowerChar s m

theorem pyLower_take_take (s : Str) (m n : Nat) (hmn : m ≤ n) :
    (pyLower (s.take n)).take m = pyLower (s.take m) := by
  rw [← pyLower_take, List.take_take, Nat.min_eq_left hmn]

theorem head?_append_left {l : Str} (l2 : Str) (h : l ≠ []) :
    (l ++ l2).head? = l.head? := by
  cases l with
  | nil => exact absurd rfl h
  | cons c rest => rfl

theorem ne_nil_of_pyLower {s x : Str} (h : pyLower s = x) (hx : x ≠ []) : s ≠ [] := by
  intro he
  subst he
  simp [pyLower] at h
  exact hx h

theorem lower_take_append_elim (h B pre : Str) (n : Nat) (_hn : pre.length = n)
    (heq : pyLower ((h ++ B).take n) = pre) :
    (n ≤ h.length ∧ pyLower (h.take n) = pre) ∨
    (h.length < n ∧ pyLower h = pre.take h.length ∧ (pyLower B)[0]? = pre[h.length]?) := by
  by_cases hle : n ≤ h.length
  · left
    rw [List.take_append_of_le_length hle] at heq
    exact ⟨hle, heq⟩
  · right
    push_neg at hle
    rw [List.take_append_eq_append_take, List.take_of_length_le (Nat.le_of_lt hle),
      pyLower_append] at heq
    have htl : ∀ X : Str, (pyLower h ++ X).take h.length = pyLower h := by
      intro X
      have h2 := List.take_left (pyLower h) X
      rwa [pyLower_length] at h2
    refine ⟨hle, ?_, ?_⟩
    · have h1 := congrArg (fun l => List.take h.length l) heq
      simp only [] at h1
      rw [htl] at h1
      exact h1
    · have h2 := congrArg (fun l => l[h.length]?) heq
      simp only [] at h2
      rw [List.getElem?_append_right (le_of_eq (pyLower_length h)), pyLower_length,
        Nat.sub_self] at h2
      rw [pyLower_take, List.getElem?_take_of_lt (by omega)] at h2
      exact h2

theorem http_no_match (h B : Str) (hA : pyLower (h.take 5) ≠ str "http:")
    (hB2 : B = [] ∨ B.head? = some '/') :
    pyLower ((h ++ B).take 7) ≠ str "http://" := by
  intro heq
  rcases lower_take_append_elim h B (str "http://") 7 (by decide) heq with
    ⟨hle, hpre⟩ | ⟨hlt, hpre, hhead⟩
  · apply hA
    have h5 := congrArg (fun l => List.take 5 l) hpre
    simp only [] at h5
    rw [pyLower_take_take h 5 7 (by omega)] at h5
    exact h5.trans (by decide)
  · rcases hB2 with rfl | hslash
    · have hnone : ((pyLower ([] : Str))[0]? : Option Char) = none := rfl
      rw [hnone] at hhead
      have hcases : h.length = 0 ∨ h.length = 1 ∨ h.length = 2 ∨ h.length = 3 ∨
          h.length = 4 ∨ h.length = 5 ∨ h.length = 6 := by omega
      rcases hcases with h0 | h0 | h0 | h0 | h0 | h0 | h0 <;> rw [h0] at hhead <;>
        exact absurd hhead (by decide)
    · obtain ⟨p, rfl⟩ : ∃ p, B = '/' :: p := by
        cases B with
        | nil => simp at hslash
        | cons a p =>
          have : a = '/' := by simpa using hslash
          exact ⟨p, by rw [this]⟩
      have hlhs : ((pyLower ('/' :: p))[0]? : Option Char) = some '/' := by
        simp only [pyLower, List.map_cons, List.getElem?_cons_zero]
        decide
      rw [hlhs] at hhead
      have hcases : h.length = 0 ∨ h.length = 1 ∨ h.length = 2 ∨ h.length = 3 ∨
          h.length = 4 ∨ h.length = 5 ∨ h.length = 6 := by omega
      rcases hcases with h0 | h0 | h0 | h0 | h0 | h0 | h0 <;> rw [h0] at hhead hpre
      · exact absurd hhead (by decide)
      · exact absurd hhead (by decide)
      · exact absurd hhead (by decide)
      · exact absurd hhead (by decide)
      · exact absurd hhead (by decide)
      · apply hA
        rw [pyLower_take, hpre]
        decide
      · apply hA
        rw [pyLower_take, hpre]
        decide

theorem https_no_match (h B : Str) (hB : pyLower (h.take 6) ≠ str "https:")
    (hB2 : B = [] ∨ B.head? = some '/') :
    pyLower ((h ++ B).take 8) ≠ str "https://" := by
  intro heq
  rcases lower_take_append_elim h B (str "https://") 8 (by decide) heq with
    ⟨hle, hpre⟩ | ⟨hlt, hpre, hhead⟩
  · apply hB
    have h6 := congrArg (fun l => List.take 6 l) hpre
    simp only [] at h6
    rw [pyLower_take_take h 6 8 (by omega)] at h6
    exact h6.trans (by decide)
  · rcases hB2 with rfl | hslash
    · have hnone : ((pyLower ([] : Str))[0]? : Option Char) = none := rfl
      rw [hnone] at hhead
      have hcases : h.length = 0 ∨ h.length = 1 ∨ h.length = 2 ∨ h.length = 3 ∨
          h.length = 4 ∨ h.length = 5 ∨ h.length = 6 ∨ h.length = 7 := by omega
      rcases hcases with h0 | h0 | h0 | h0 | h0 | h0 | h0 | h0 <;> rw [h0] at hhead <;>
        exact absurd hhead (by decide)
    · obtain ⟨p, rfl⟩ : ∃ p, B = '/' :: p := by
        cases B with
        | nil => simp at hslash
        | cons a p =>
          have : a = '/' := by simpa using hslash
          exact ⟨p, by rw [this]⟩
      have hlhs : ((pyLower ('/' :: p))[0]? : Option Char) = some '/' := by
        simp only [pyLower, List.map_cons, List.getElem?_cons_zero]
        decide
      rw [hlhs] at hhead
      have hcases : h.length = 0 ∨ h.length = 1 ∨ h.length = 2 ∨ h.length = 3 ∨
          h.length = 4 ∨ h.length = 5 ∨ h.length = 6 ∨ h.length = 7 := by omega
      rcases hcases with h0 | h0 | h0 | h0 | h0 | h0 | h0 | h0 <;> rw [h0] at hhead hpre
      · exact absurd hhead (by decide)
      · exact absurd hhead (by decide)
      · exact absurd hhead (by decide)
      · exact absurd hhead (by decide)
      · exact absurd hhead (by decide)
      · exact absurd hhead (by decide)
      · apply hB
        rw [pyLower_take, hpre]
        decide
      · apply hB
        rw [pyLower_take, hpre]
        decide

theorem www_no_match (h B : Str) (hC : pyLower (h.take 4) ≠ str "www.")
    (hB2 : B = [] ∨ B.head? = some '/') :
    pyLower ((h ++ B).take 4) ≠ str "www." := by
  intro heq
  rcases lower_take_append_elim h B (str "www.") 4 (by decide) heq with
    ⟨hle, hpre⟩ | ⟨hlt, hpre, hhead⟩
  · exact hC hpre
  · rcases hB2 with rfl | hslash
    · have hnone : ((pyLower ([] : Str))[0]? : Option Char) = none := rfl
      rw [hnone] at hhead
      have hcases : h.length = 0 ∨ h.length = 1 ∨ h.length = 2 ∨ h.length = 3 := by omega
      rcases hcases with h0 | h0 | h0 | h0 <;> rw [h0] at hhead <;>
        exact absurd hhead (by decide)
    · obtain ⟨p, rfl⟩ : ∃ p, B = '/' :: p := by
        cases B with
        | nil => simp at hslash
        | cons a p =>
          have : a = '/' := by simpa using hslash
          exact ⟨p, by rw [this]⟩
      have hlhs : ((pyLower ('/' :: p))[0]? : Option Char) = some '/' := by
        simp only [pyLower, List.map_cons, List.getElem?_cons_zero]
        decide
      rw [hlhs] at hhead
      have hcases : h.length = 0 ∨ h.length = 1 ∨ h.length = 2 ∨ h.length = 3 := by omega
      rcases hcases with h0 | h0 | h0 | h0 <;> rw [h0] at hhead <;>
        exact absurd hhead (by decide)

theorem lower_take_ne_of_head (s pre : Str) (c0 d0 : Char) (hs : s.head? = some c0)
    (hp : pre.head? = some d0) (hne : lowerChar c0 ≠ d0) :
    pyLower (s.take pre.length) ≠ pre := by
  intro heq
  cases s with
  | nil => simp at hs
  | cons a s2 =>
    have ha : a = c0 := by simpa using hs
    subst ha
    cases pre with
    | nil => simp at hp
    | cons b pre2 =>
      have hb : b = d0 := by simpa using hp
      subst hb
      rw [List.length_cons, List.take_succ_cons] at heq
      simp only [pyLower, List.map_cons] at heq
      injection heq with h1 _
      exact hne h1

theorem stripScheme_strip (scheme rest : Str)
    (h : pyLower scheme = str "http://" ∨ pyLower scheme = str "https://") :
    stripScheme (scheme ++ rest) = rest := by
  rcases h with h | h
  · have hlen : scheme.length = 7 := by
      have h2 := congrArg List.length h
      rw [pyLower_length] at h2
      exact h2.trans (by decide)
    unfold stripScheme
    rw [if_neg ?negC]
    case negC =>
      intro heq
      rw [List.take_append_eq_append_take, List.take_of_length_le (by omega),
        pyLower_append, h] at heq
      have h5 := congrArg (fun l => List.take 5 l) heq
      simp only [] at h5
      rw [List.take_append_of_le_length (by decide)] at h5
      exact absurd h5 (by decide)
    rw [if_pos ?posC]
    case posC =>
      rw [show (7 : Nat) = scheme.length from hlen.symm, List.take_left]
      exact h
    rw [show (7 : Nat) = scheme.length from hlen.symm, List.drop_left]
  · have hlen : scheme.length = 8 := by
      have h2 := congrArg List.length h
      rw [pyLower_length] at h2
      exact h2.trans (by decide)
    unfold stripScheme
    rw [if_pos ?posC2]
    case posC2 =>
      rw [show (8 : Nat) = scheme.length from hlen.symm, List.take_left]
      exact h
    rw [show (8 : Nat) = scheme.length from hlen.symm, List.drop_left]

theorem stripWww_strip (www rest : Str) (h : pyLower www = str "www.") :
    stripWww (www ++ rest) = rest := by
  have hlen : www.length = 4 := by
    have h2 := congrArg List.length h
    rw [pyLower_length] at h2
    exact h2.trans (by decide)
  unfold stripWww
  rw [if_pos ?posW]
  case posW =>
    rw [show (4 : Nat) = www.length from hlen.symm, List.take_left]
    exact h
  rw [show (4 : Nat) = www.length from hlen.symm, List.drop_left]

theorem stripScheme_keep (s : Str) (h1 : pyLower (s.take 8) ≠ str "https://")
    (h2 : pyLower (s.take 7) ≠ str "http://") : stripScheme s = s := by
  unfold stripScheme
  rw [if_neg h1, if_neg h2]

theorem stripWww_keep (s : Str) (h : pyLower (s.take 4) ≠ str "www.") :
    stripWww s = s := by
  unfold stripWww
  rw [if_neg h]

/-- C6: `clean_domain` is invariant under decoration of a host: for any
host `h` (non-empty, free of whitespace and slashes, and not itself
beginning with a scheme or `www.` marker), adding surrounding whitespace,
a leading `http://`/`https://` in any letter case, a leading `www.` in
any letter case, and a trailing `/`-path yields the lowercased host; and
blank input yields the empty string. -/
theorem c6_clean_domain_invariance :
    (∀ (ws1 scheme www h path ws2 : Str),
      ws1.all pyWhitespace = true →
      ws2.all pyWhitespace = true →
      (scheme = [] ∨ pyLower scheme = str "http://" ∨ pyLower scheme = str "https://") →
      (www = [] ∨ pyLower www = str "www.") →
      h ≠ [] →
      (∀ c ∈ h, pyWhitespace c = false) →
      '/' ∉ h →
      pyLower (h.take 5) ≠ str "http:" →
      pyLower (h.take 6) ≠ str "https:" →
      pyLower (h.take 4) ≠ str "www." →
      (path = [] ∨ path.head? = some '/') →
      clean_domain (ws1 ++ (scheme ++ (www ++ (h ++ (path ++ ws2))))) = pyLower h) ∧
    (∀ s : Str, s.all pyWhitespace = true → clean_domain s = []) := by
  constructor
  · intro ws1 scheme www h path ws2 hws1 hws2 hscheme hwww hne hhs hsl hA hB hC hpath
    have hassoc : ws1 ++ (scheme ++ (www ++ (h ++ (path ++ ws2)))) =
        ws1 ++ ((scheme ++ (www ++ h)) ++ (path ++ ws2)) := by
      simp [List.append_assoc]
    rw [hassoc]
    have hT : dropTrailing (path ++ ws2) = [] ∨
        (dropTrailing (path ++ ws2)).head? = some '/' := by
      rcases hpath with rfl | hph
      · left
        rw [List.nil_append]
        exact dropTrailing_nil_of_all hws2
      · rcases dropTrailing_head (path ++ ws2) with hnil | hh
        · exact Or.inl hnil
        · right
          rw [hh, head?_append_left ws2 (fun hc => by rw [hc] at hph; simp at hph)]
          exact hph
    have hAne : (scheme ++ (www ++ h)) ≠ [] := by
      intro hc
      simp only [List.append_eq_nil] at hc
      exact hne hc.2.2
    have hheadA : ∀ c, (scheme ++ (www ++ h)).head? = some c → pyWhitespace c = false := by
      intro c hc
      rcases hscheme with rfl | hsw
      · rw [List.nil_append] at hc
        rcases hwww with rfl | hw
        · rw [List.nil_append] at hc
          exact hhs c (List.mem_of_mem_head? hc)
        · have hwne : www ≠ [] := ne_nil_of_pyLower hw (by decide)
          rw [head?_append_left h hwne] at hc
          refine @head_not_ws_of_lower www 'w' ?_ (by decide) c hc
          rw [hw]
          rfl
      · have hsne : scheme ≠ [] := by
          rcases hsw with hs1 | hs1 <;> exact ne_nil_of_pyLower hs1 (by decide)
        rw [head?_append_left _ hsne] at hc
        refine @head_not_ws_of_lower scheme 'h' ?_ (by decide) c hc
        rcases hsw with hs1 | hs1 <;> (rw [hs1]; rfl)
    have hlastA : ∀ c, (scheme ++ (www ++ h)).reverse.head? = some c →
        pyWhitespace c = false := by
      intro c hc
      rw [List.reverse_append, List.reverse_append] at hc
      have hhrne : h.reverse ≠ [] := by simpa using hne
      rw [head?_append_left _ (List.append_ne_nil_of_left_ne_nil hhrne _)] at hc
      rw [head?_append_left _ hhrne] at hc
      exact hhs c (List.mem_reverse.1 (List.mem_of_mem_head? hc))
    have hstrip := pyStrip_decomp ws1 (scheme ++ (www ++ h)) (path ++ ws2)
      hws1 hAne hheadA hlastA
    unfold clean_domain
    rw [hstrip]
    rw [if_neg (List.append_ne_nil_of_left_ne_nil hAne _)]
    rw [List.append_assoc]
    have hSch : stripScheme (scheme ++ ((www ++ h) ++ dropTrailing (path ++ ws2))) =
        (www ++ h) ++ dropTrailing (path ++ ws2) := by
      rcases hscheme with rfl | hsw
      · rw [List.nil_append]
        rcases hwww with rfl | hw
        · rw [List.nil_append]
          exact stripScheme_keep _ (https_no_match h _ hB hT) (http_no_match h _ hA hT)
        · have hwne : www ≠ [] := ne_nil_of_pyLower hw (by decide)
          obtain ⟨w, wrest, rfl⟩ := List.exists_cons_of_ne_nil hwne
          have hwlow : lowerChar w = 'w' := by
            have h2 := congrArg (fun l => l.head?) hw
            simp only [pyLower, List.map_cons, List.head?_cons] at h2
            rw [show (str "www.").head? = some 'w' from rfl] at h2
            exact Option.some.inj h2
          apply stripScheme_keep
          · exact lower_take_ne_of_head _ (str "https://") w 'h' rfl rfl
              (by rw [hwlow]; decide)
          · exact lower_take_ne_of_head _ (str "http://") w 'h' rfl rfl
              (by rw [hwlow]; decide)
      · exact stripScheme_strip scheme _ hsw
    rw [hSch]
    have hW : stripWww ((www ++ h) ++ dropTrailing (path ++ ws2)) =
        h ++ dropTrailing (path ++ ws2) := by
      rcases hwww with rfl | hw
      · rw [List.nil_append]
        exact stripWww_keep _ (www_no_match h _ hC hT)
      · rw [List.append_assoc]
        exact stripWww_strip www _ hw
    rw [hW]
    rw [takeUntilSlash_append h _ hsl hT]
    rw [pyStrip_eq_self hhs]
  · intro s hs
    have h1 : pyStrip s = [] := by
      unfold pyStrip dropLeading
      rw [dropWhile_nil_of_all hs]
      rfl
    simp [clean_domain, h1]

theorem c6_clean_domain_invariance_witness :
    clean_domain (str "  HTTPS://www.Example.com/about  ") = str "example.com" ∧
    clean_domain (str "   ") = [] := by
  constructor
  · have h := c6_clean_domain_invariance.1 (str "  ") (str "HTTPS://") (str "www.")
      (str "Example.com") (str "/about") (str "  ")
      (by decide) (by decide) (by decide) (by decide) (by decide) (by decide)
      (by decide) (by decide) (by decide) (by decide) (by decide)
    have heq : (str "  " ++ (str "HTTPS://" ++ (str "www." ++
        (str "Example.com" ++ (str "/about" ++ str "  "))))) =
        str "  HTTPS://www.Example.com/about  " := by decide
    rw [heq] at h
    rw [h]
    decide
  · exact c6_clean_domain_invariance.2 (str "   ") (by decide)
